import Mathlib

/-!
Verification of the segmentation core of the adaptivefiltering repository.

The embedding models GeoJSON feature collections the way the Python code
manipulates them: a feature is a property table, a geometry type tag and a
dynamically nested coordinate structure (Python nested lists of numbers).
Numeric coordinates are modelled as integers; none of the verified
operations performs arithmetic beyond comparison, minimum and maximum.
-/

/-- Python nested lists of numbers, as used for GeoJSON coordinates.
A coordinate pair is `lst [num x, num y]`, a ring is a `lst` of pairs,
Polygon coordinates are a `lst` of rings, MultiPolygon coordinates a
`lst` of polygons. -/
inductive NList where
  | num (n : Int)
  | lst (l : List NList)

mutual

/-- Decidable equality for the nested coordinate type. -/
def NList.decEq : (a b : NList) → Decidable (a = b)
  | .num a, .num b =>
      if h : a = b then .isTrue (by rw [h]) else .isFalse (by intro hc; cases hc; exact h rfl)
  | .num _, .lst _ => .isFalse (by intro hc; cases hc)
  | .lst _, .num _ => .isFalse (by intro hc; cases hc)
  | .lst as, .lst bs =>
      match NList.decEqList as bs with
      | .isTrue h => .isTrue (by rw [h])
      | .isFalse h => .isFalse (by intro hc; cases hc; exact h rfl)

/-- Decidable equality for lists of nested coordinates. -/
def NList.decEqList : (as bs : List NList) → Decidable (as = bs)
  | [], [] => .isTrue rfl
  | [], _ :: _ => .isFalse (by intro hc; cases hc)
  | _ :: _, [] => .isFalse (by intro hc; cases hc)
  | a :: as, b :: bs =>
      match NList.decEq a b, NList.decEqList as bs with
      | .isTrue h1, .isTrue h2 => .isTrue (by rw [h1, h2])
      | .isFalse h1, _ => .isFalse (by intro hc; cases hc; exact h1 rfl)
      | _, .isFalse h2 => .isFalse (by intro hc; cases hc; exact h2 rfl)

end

instance : DecidableEq NList := NList.decEq

/-- Property values stored in a feature's `properties` table.
`arr` stands for a Python list value, which is not hashable. -/
inductive PVal where
  | str (s : String)
  | int (n : Int)
  | arr (l : List Int)
deriving DecidableEq

/-- Python hashability of a property value: lists are not hashable. -/
def PVal.hashable : PVal → Bool
  | .arr _ => false
  | _ => true

/-- One GeoJSON feature: `properties` dict (association list in insertion
order, keys unique in well-formed inputs), the `geometry.type` tag and the
`geometry.coordinates` nesting. -/
structure Feature where
  props : List (String × PVal)
  gtype : String
  coords : NList
deriving DecidableEq

/-- `coordinate` is a pair `[x, y]` of numbers. -/
def NList.isPair : NList → Bool
  | .lst [.num _, .num _] => true
  | _ => false

/-- a ring: a list of coordinate pairs. -/
def NList.isRing : NList → Bool
  | .lst cs => cs.all NList.isPair
  | .num _ => false

/-- Polygon-shaped coordinates: a list of rings. -/
def NList.isRingList : NList → Bool
  | .lst rs => rs.all NList.isRing
  | .num _ => false

/-- MultiPolygon-shaped coordinates: a list of polygons. -/
def NList.isPolyList : NList → Bool
  | .lst ps => ps.all NList.isRingList
  | .num _ => false

/-- Well-formed feature per the data model: geometry type tag is Polygon
with polygon-shaped coordinates, or MultiPolygon with multipolygon-shaped
coordinates, all points being 2D pairs. -/
def wfFeature (f : Feature) : Bool :=
  (f.gtype = "Polygon" && f.coords.isRingList)
    || (f.gtype = "MultiPolygon" && f.coords.isPolyList)

/-- Well-formed segmentation: every feature is well-formed. -/
def wfSeg (fs : List Feature) : Bool :=
  fs.all wfFeature

/-! ## swap_coordinates (segmentation.py lines 145-169)

The Python code deep-copies the feature list, then for each original
feature wraps Polygon coordinates in place to multipolygon nesting,
traverses polygons / holes / coordinates building `[c[1], c[0]]` for each
coordinate, unwraps again for Polygon features, and stores the result on
the copied feature. Failures of the traversal (iterating a number,
indexing a too-short list) are modelled by `Option`. -/

/-- Map a fallible operation over a list, failing if any element fails
(the Python for-loop propagating exceptions). -/
def optionMapAll {a b : Type} (g : a -> Option b) : List a -> Option (List b)
  | [] => some []
  | x :: xs => do
      let y <- g x
      let ys <- optionMapAll g xs
      pure (y :: ys)

theorem optionMapAll_nil {a b : Type} (g : a -> Option b) : optionMapAll g [] = some [] := rfl

theorem optionMapAll_cons {a b : Type} (g : a -> Option b) (x : a) (xs : List a) :
    optionMapAll g (x :: xs)
      = (g x).bind (fun y => (optionMapAll g xs).bind (fun ys => some (y :: ys))) := rfl

/-- The innermost step: Python `[coordinate[1], coordinate[0]]`.
Indexing a number or a list with fewer than two entries raises. -/
def swapCoordinate : NList → Option NList
  | .num _ => none
  | .lst cs => do
      let a ← cs[1]?
      let b ← cs[0]?
      pure (.lst [a, b])

/-- Swap every coordinate of one hole (ring). -/
def swapHole : NList → Option NList
  | .num _ => none
  | .lst cs => do
      pure (.lst (← optionMapAll swapCoordinate cs))

/-- Swap every hole of one polygon. -/
def swapPolygon : NList → Option NList
  | .num _ => none
  | .lst holes => do
      pure (.lst (← optionMapAll swapHole holes))

/-- The output feature produced by `swap_coordinates` for one input
feature: Polygon coordinates are wrapped to multipolygon nesting for the
traversal and the first element is taken back out at the end; the
geometry type tag is kept (only the copied feature's coordinates are
reassigned). -/
def swapFeature (f : Feature) : Option Feature :=
  let wrapped := if f.gtype = "Polygon" then NList.lst [f.coords] else f.coords
  match wrapped with
  | .num _ => none
  | .lst polys => do
      let pl ← optionMapAll swapPolygon polys
      let newCoords ← if f.gtype = "Polygon" then pl[0]? else pure (NList.lst pl)
      pure { f with coords := newCoords }

/-- `swap_coordinates`: the returned segmentation (the deep-copied feature
list with swapped coordinates). -/
def swap_coordinates (fs : List Feature) : Option (List Feature) :=
  optionMapAll swapFeature fs

/-- State of ONE input feature after a completed `swap_coordinates` call:
the code mutates the original feature, wrapping Polygon coordinates to
multipolygon nesting in place (line 155 assigns to `feature`, not to the
deep copy), and never restores them. -/
def swapFeaturePost (f : Feature) : Feature :=
  if f.gtype = "Polygon" then { f with coords := .lst [f.coords] } else f

/-- State of the input feature list after a completed
`swap_coordinates` call. -/
def swap_coordinates_post (fs : List Feature) : List Feature :=
  fs.map swapFeaturePost

/-! ## C5: swap_coordinates is an involution on well-formed segmentations -/

theorem mapM_roundtrip {α : Type} (g : α → Option α) (P : α → Prop)
    (hg : ∀ x, P x → ∃ y, g x = some y ∧ P y ∧ g y = some x) :
    ∀ l : List α, (∀ x ∈ l, P x) →
      ∃ l2, optionMapAll g l = some l2 ∧ (∀ y ∈ l2, P y) ∧ optionMapAll g l2 = some l := by
  intro l
  induction l with
  | nil => intro _; exact ⟨[], rfl, by simp, rfl⟩
  | cons a as ih =>
      intro h
      obtain ⟨b, hgb, hPb, hgba⟩ := hg a (h a (by simp))
      obtain ⟨bs, hmap, hPbs, hback⟩ := ih (fun x hx => h x (by simp [hx]))
      refine ⟨b :: bs, ?_, ?_, ?_⟩
      · simp [optionMapAll_cons, hgb, hmap, optionMapAll]
      · intro y hy
        rcases List.mem_cons.mp hy with h1 | h2
        · exact h1 ▸ hPb
        · exact hPbs y h2
      · simp [optionMapAll_cons, hgba, hback, optionMapAll]

theorem swapCoordinate_roundtrip (c : NList) (h : c.isPair = true) :
    ∃ d, swapCoordinate c = some d ∧ d.isPair = true ∧ swapCoordinate d = some c := by
  unfold NList.isPair at h
  split at h
  · next x y => exact ⟨.lst [.num y, .num x], rfl, rfl, rfl⟩
  · exact absurd h (by simp)

theorem swapHole_roundtrip (r : NList) (h : r.isRing = true) :
    ∃ s, swapHole r = some s ∧ s.isRing = true ∧ swapHole s = some r := by
  cases r with
  | num n => simp [NList.isRing] at h
  | lst cs =>
      simp only [NList.isRing, List.all_eq_true, decide_eq_true_eq] at h
      obtain ⟨cs2, hm, hP, hb⟩ := mapM_roundtrip swapCoordinate (fun c => c.isPair = true)
        swapCoordinate_roundtrip cs h
      refine ⟨.lst cs2, ?_, ?_, ?_⟩
      · simp [swapHole, hm]
      · simp only [NList.isRing, List.all_eq_true, decide_eq_true_eq]
        exact hP
      · simp [swapHole, hb]

theorem swapPolygon_roundtrip (p : NList) (h : p.isRingList = true) :
    ∃ q, swapPolygon p = some q ∧ q.isRingList = true ∧ swapPolygon q = some p := by
  cases p with
  | num n => simp [NList.isRingList] at h
  | lst rs =>
      simp only [NList.isRingList, List.all_eq_true, decide_eq_true_eq] at h
      obtain ⟨rs2, hm, hP, hb⟩ := mapM_roundtrip swapHole (fun r => r.isRing = true)
        swapHole_roundtrip rs h
      refine ⟨.lst rs2, ?_, ?_, ?_⟩
      · simp [swapPolygon, hm]
      · simp only [NList.isRingList, List.all_eq_true, decide_eq_true_eq]
        exact hP
      · simp [swapPolygon, hb]

theorem swapFeature_roundtrip (f : Feature) (h : wfFeature f = true) :
    ∃ g, swapFeature f = some g ∧ g.gtype = f.gtype ∧ g.props = f.props ∧
      wfFeature g = true ∧ swapFeature g = some f := by
  obtain ⟨pr, gt, co⟩ := f
  simp only [wfFeature, Bool.or_eq_true, Bool.and_eq_true, decide_eq_true_eq] at h
  rcases h with ⟨hg, hc⟩ | ⟨hg, hc⟩ <;> subst hg
  · obtain ⟨p2, hm, hP, hb⟩ := swapPolygon_roundtrip co hc
    refine ⟨⟨pr, "Polygon", p2⟩, ?_, rfl, rfl, ?_, ?_⟩
    · simp [swapFeature, optionMapAll, hm]
    · simp [wfFeature, hP]
    · simp [swapFeature, optionMapAll, hb]
  · cases co with
    | num n => simp [NList.isPolyList] at hc
    | lst ps =>
        simp only [NList.isPolyList, List.all_eq_true, decide_eq_true_eq] at hc
        obtain ⟨ps2, hm, hP, hb⟩ := mapM_roundtrip swapPolygon (fun p => p.isRingList = true)
          swapPolygon_roundtrip ps hc
        refine ⟨⟨pr, "MultiPolygon", .lst ps2⟩, ?_, rfl, rfl, ?_, ?_⟩
        · simp [swapFeature, hm]
        · have hP2 : NList.isPolyList (.lst ps2) = true := by
            simp only [NList.isPolyList, List.all_eq_true, decide_eq_true_eq]
            exact hP
          simp [wfFeature, hP2]
        · simp [swapFeature, hb]

theorem swap_coordinates_roundtrip : ∀ fs : List Feature, wfSeg fs = true →
    ∃ gs, swap_coordinates fs = some gs ∧ gs.map Feature.gtype = fs.map Feature.gtype ∧
      wfSeg gs = true ∧ swap_coordinates gs = some fs := by
  intro fs
  induction fs with
  | nil => intro _; exact ⟨[], rfl, rfl, rfl, rfl⟩
  | cons f fs ih =>
      intro h
      simp only [wfSeg, List.all_cons, Bool.and_eq_true] at h
      obtain ⟨g, hg1, hg2, _, hg4, hg5⟩ := swapFeature_roundtrip f h.1
      obtain ⟨gs, hs1, hs2, hs4, hs5⟩ := ih h.2
      simp only [swap_coordinates] at hs1 hs5 ⊢
      refine ⟨g :: gs, ?_, ?_, ?_, ?_⟩
      · simp [optionMapAll_cons, hg1, hs1]
      · simp [hg2, hs2]
      · simp only [wfSeg, List.all_cons, Bool.and_eq_true]
        exact ⟨hg4, by simpa [wfSeg] using hs4⟩
      · simp [optionMapAll_cons, hg5, hs5]

/-- C5: for every Segmentation whose features are Polygons or
MultiPolygons of 2D coordinate pairs, swap_coordinates succeeds, applying
it twice recovers a segmentation with coordinates (and everything else)
identical to the original, and each output feature keeps the geometry
type tag of its input feature. -/
theorem C5_swapXY_involution (fs : List Feature) (h : wfSeg fs = true) :
    ∃ gs, swap_coordinates fs = some gs ∧
      gs.map Feature.gtype = fs.map Feature.gtype ∧
      swap_coordinates gs = some fs := by
  obtain ⟨gs, h1, h2, _, h4⟩ := swap_coordinates_roundtrip fs h
  exact ⟨gs, h1, h2, h4⟩

/-- A concrete Polygon feature used to instantiate proved theorems. -/
def polyFeatureA : Feature :=
  ⟨[("class", .str "a")], "Polygon",
    .lst [.lst [.lst [.num 1, .num 2], .lst [.num 3, .num 4]]]⟩

/-- A concrete MultiPolygon feature used to instantiate proved theorems. -/
def mpolyFeatureB : Feature :=
  ⟨[("class", .str "b")], "MultiPolygon",
    .lst [.lst [.lst [.lst [.num 5, .num 6], .lst [.num 7, .num 8]]]]⟩

theorem C5_swapXY_involution_witness :
    wfSeg [polyFeatureA, mpolyFeatureB] = true ∧
      ∃ gs, swap_coordinates [polyFeatureA, mpolyFeatureB] = some gs ∧
        gs.map Feature.gtype = [polyFeatureA, mpolyFeatureB].map Feature.gtype ∧
        swap_coordinates gs = some [polyFeatureA, mpolyFeatureB] :=
  ⟨by decide, C5_swapXY_involution [polyFeatureA, mpolyFeatureB] (by decide)⟩

/-! ## merge_classes (segmentation.py lines 77-114)

The Python code walks the feature list; the first feature of each class
value is appended to the output BY REFERENCE and, if it is a Polygon,
mutated in place to a MultiPolygon with wrapped coordinates; every later
feature of the same class has its coordinates appended to that shared
accumulator object. The fold state is the output list (each accumulator
tagged with the input position of the feature it aliases) together with
the list of class values in insertion order; the dict added_classes maps
each value to the accumulator position, which equals its index in that
value list. `Option` models the Python exceptions (unhashable dict key,
appending to or iterating a non-list). -/

/-- In-place promotion of a Polygon accumulator on insertion
(lines 93-102): the geometry type tag becomes MultiPolygon and the
coordinates are wrapped in a one-element list. -/
def promoteFeature (f : Feature) : Feature :=
  if f.gtype = "Polygon" then { f with gtype := "MultiPolygon", coords := .lst [f.coords] }
  else f

/-- Appending a later same-class feature's coordinates to the accumulator
(lines 103-113): a Polygon contributes its whole coordinate nesting as one
entry, a MultiPolygon contributes each of its entries; any other geometry
type tag contributes nothing. Appending to a non-list accumulator or
iterating a non-list MultiPolygon raises. -/
def appendCoords (acc f : Feature) : Option Feature :=
  match acc.coords with
  | .num _ => none
  | .lst cs =>
      if f.gtype = "Polygon" then some { acc with coords := .lst (cs ++ [f.coords]) }
      else if f.gtype = "MultiPolygon" then
        match f.coords with
        | .num _ => none
        | .lst ds => some { acc with coords := .lst (cs ++ ds) }
      else some acc

/-- One iteration of the merge loop for the feature at input position
`p.1`. Checking an unhashable value against the dict keys raises. -/
def mergeStep (kw : String) (st : List (Nat × Feature) × List PVal) (p : Nat × Feature) :
    Option (List (Nat × Feature) × List PVal) :=
  match p.2.props.lookup kw with
  | none => some st
  | some v =>
      if v.hashable then
        if v ∈ st.2 then
          match st.1[st.2.indexOf v]? with
          | none => none
          | some q =>
              (appendCoords q.2 p.2).map
                (fun a2 => (st.1.set (st.2.indexOf v) (q.1, a2), st.2))
        else some (st.1 ++ [(p.1, promoteFeature p.2)], st.2 ++ [v])
      else none

/-- The merge loop over the whole feature list. -/
def mergeFold (kw : String) :
    List (Nat × Feature) → List (Nat × Feature) × List PVal →
      Option (List (Nat × Feature) × List PVal)
  | [], st => some st
  | p :: l, st => (mergeStep kw st p).bind (mergeFold kw l)

/-- `merge_classes`: the returned segmentation. -/
def merge_classes (kw : String) (fs : List Feature) : Option (List Feature) :=
  (mergeFold kw fs.enum ([], [])).map (fun st => st.1.map Prod.snd)

/-- State of the input feature list after a completed `merge_classes`
call: each first-of-class feature IS the accumulator object of its class
(the output aliases it), so it carries every mutation applied to the
accumulator; all other features are untouched. -/
def merge_classes_post (kw : String) (fs : List Feature) : Option (List Feature) :=
  (mergeFold kw fs.enum ([], [])).map (fun st =>
    fs.enum.map (fun p =>
      match st.1.find? (fun q => q.1 == p.1) with
      | some q => q.2
      | none => p.2))

/-- First-seen deduplication: the insertion order of Python dict keys. -/
def seenFold (acc : List PVal) (vs : List PVal) : List PVal :=
  vs.foldl (fun a v => if v ∈ a then a else a ++ [v]) acc

theorem seenFold_nil (acc : List PVal) : seenFold acc [] = acc := rfl

theorem seenFold_cons (acc : List PVal) (v : PVal) (vs : List PVal) :
    seenFold acc (v :: vs) = seenFold (if v ∈ acc then acc else acc ++ [v]) vs := rfl

theorem promoteFeature_props (f : Feature) : (promoteFeature f).props = f.props := by
  unfold promoteFeature
  split <;> rfl

theorem promoteFeature_lst (f : Feature) (h : wfFeature f = true) :
    ∃ cs, (promoteFeature f).coords = NList.lst cs := by
  simp only [wfFeature, Bool.or_eq_true, Bool.and_eq_true, decide_eq_true_eq] at h
  rcases h with ⟨hg, _⟩ | ⟨hg, hc⟩
  · exact ⟨[f.coords], by simp [promoteFeature, hg]⟩
  · cases hco : f.coords with
    | num n => rw [hco] at hc; simp [NList.isPolyList] at hc
    | lst ps =>
        refine ⟨ps, ?_⟩
        simp [promoteFeature, hg, hco]

theorem appendCoords_ok (acc f : Feature) (hacc : ∃ cs, acc.coords = NList.lst cs)
    (hf : wfFeature f = true) :
    ∃ a2, appendCoords acc f = some a2 ∧ a2.props = acc.props ∧
      ∃ cs2, a2.coords = NList.lst cs2 := by
  obtain ⟨cs, hcs⟩ := hacc
  simp only [wfFeature, Bool.or_eq_true, Bool.and_eq_true, decide_eq_true_eq] at hf
  rcases hf with ⟨hg, _⟩ | ⟨hg, hc⟩
  · exact ⟨{ acc with coords := .lst (cs ++ [f.coords]) },
      by simp [appendCoords, hcs, hg], rfl, cs ++ [f.coords], rfl⟩
  · cases hco : f.coords with
    | num n => rw [hco] at hc; simp [NList.isPolyList] at hc
    | lst ds =>
        exact ⟨{ acc with coords := .lst (cs ++ ds) },
          by simp [appendCoords, hcs, hg, hco], rfl, cs ++ ds, rfl⟩

theorem set_eq_self_of_getElem {α : Type} :
    ∀ (l : List α) (i : Nat) (a : α), l[i]? = some a → l.set i a = l := by
  intro l
  induction l with
  | nil => intro i a h; simp at h
  | cons x xs ih =>
      intro i a h
      cases i with
      | zero =>
          simp only [List.getElem?_cons_zero, Option.some_inj] at h
          simp [h]
      | succ j =>
          simp only [List.getElem?_cons_succ] at h
          simp [ih j a h]

theorem snd_mem_of_mem_enumFrom {α : Type} :
    ∀ (l : List α) (n : Nat) (p : Nat × α), p ∈ l.enumFrom n → p.2 ∈ l := by
  intro l
  induction l with
  | nil => intro n p h; simp [List.enumFrom] at h
  | cons x xs ih =>
      intro n p h
      rcases List.mem_cons.mp h with h1 | h2
      · subst h1; exact List.mem_cons_self x xs
      · exact List.mem_cons_of_mem x (ih (n + 1) p h2)

theorem filterMap_snd_enumFrom {α β : Type} (g : α → Option β) :
    ∀ (n : Nat) (l : List α), (l.enumFrom n).filterMap (fun p => g p.2) = l.filterMap g := by
  intro n l
  induction l generalizing n with
  | nil => rfl
  | cons x xs ih => simp [List.enumFrom, List.filterMap_cons, ih (n + 1)]

theorem mergeFold_spec (kw : String) :
    ∀ (l : List (Nat × Feature)) (out : List (Nat × Feature)) (added : List PVal),
      (∀ p ∈ l, wfFeature p.2 = true) →
      (∀ p ∈ l, ∀ v, p.2.props.lookup kw = some v → v.hashable = true) →
      out.map (fun q => q.2.props.lookup kw) = added.map some →
      (∀ q ∈ out, ∃ cs, q.2.coords = NList.lst cs) →
      ∃ out2,
        mergeFold kw l (out, added)
          = some (out2, seenFold added (l.filterMap (fun p => p.2.props.lookup kw))) ∧
        out2.map (fun q => q.2.props.lookup kw)
          = (seenFold added (l.filterMap (fun p => p.2.props.lookup kw))).map some ∧
        (∀ q ∈ out2, ∃ cs, q.2.coords = NList.lst cs) := by
  intro l
  induction l with
  | nil => intro out added _ _ hmap hlst; exact ⟨out, rfl, hmap, hlst⟩
  | cons p l ih =>
      intro out added hwf hh hmap hlst
      cases hlk : p.2.props.lookup kw with
      | none =>
          have hrw : mergeFold kw (p :: l) (out, added) = mergeFold kw l (out, added) := by
            simp [mergeFold, mergeStep, hlk]
          rw [hrw]
          simp only [List.filterMap_cons, hlk]
          exact ih out added (fun q hq => hwf q (List.mem_cons_of_mem p hq))
            (fun q hq => hh q (List.mem_cons_of_mem p hq)) hmap hlst
      | some v =>
          have hv : v.hashable = true := hh p (List.mem_cons_self p l) v hlk
          simp only [List.filterMap_cons, hlk, seenFold_cons]
          by_cases hmem : v ∈ added
          · have hlen : out.length = added.length := by
              have hl := congrArg List.length hmap
              simpa using hl
            have hidx : added.indexOf v < added.length := List.indexOf_lt_length.mpr hmem
            have hci : added.indexOf v < out.length := by omega
            obtain ⟨q, hq⟩ : ∃ q, out[added.indexOf v]? = some q :=
              ⟨_, List.getElem?_eq_getElem hci⟩
            obtain ⟨csq, hcsq⟩ := hlst q (List.getElem?_mem hq)
            obtain ⟨a2, ha2, ha2p, ha2c⟩ :=
              appendCoords_ok q.2 p.2 ⟨csq, hcsq⟩ (hwf p (List.mem_cons_self p l))
            have hgv : q.2.props.lookup kw = some v := by
              have h1 := congrArg (fun t => t[added.indexOf v]?) hmap
              simp only [List.getElem?_map, hq,
                List.getElem?_eq_getElem hidx, Option.map_some'] at h1
              rw [List.getElem_indexOf hidx] at h1
              exact Option.some.inj h1
            have hstep :
                mergeStep kw (out, added) p
                  = some (out.set (added.indexOf v) (q.1, a2), added) := by
              simp [mergeStep, hlk, hv, hmem, hq, ha2]
            have hrw : mergeFold kw (p :: l) (out, added)
                = mergeFold kw l (out.set (added.indexOf v) (q.1, a2), added) := by
              simp [mergeFold, hstep]
            rw [hrw]
            simp only [hmem, if_true]
            apply ih
            · exact fun q2 hq2 => hwf q2 (List.mem_cons_of_mem p hq2)
            · exact fun q2 hq2 => hh q2 (List.mem_cons_of_mem p hq2)
            · rw [List.map_set]
              have hval : ((q.1, a2) : Nat × Feature).2.props.lookup kw = some v := by
                simpa [ha2p] using hgv
              rw [hval, hmap]
              apply set_eq_self_of_getElem
              rw [List.getElem?_eq_getElem (by simpa using hidx), List.getElem_map,
                List.getElem_indexOf]
            · intro q hq
              rcases List.mem_or_eq_of_mem_set hq with hmem2 | heq
              · exact hlst q hmem2
              · subst heq; exact ha2c
          · have hstep :
                mergeStep kw (out, added)
                  p = some (out ++ [(p.1, promoteFeature p.2)], added ++ [v]) := by
              simp [mergeStep, hlk, hv, hmem]
            have hrw : mergeFold kw (p :: l) (out, added)
                = mergeFold kw l (out ++ [(p.1, promoteFeature p.2)], added ++ [v]) := by
              simp [mergeFold, hstep]
            rw [hrw]
            simp only [hmem, if_false]
            apply ih
            · exact fun q hq => hwf q (List.mem_cons_of_mem p hq)
            · exact fun q hq => hh q (List.mem_cons_of_mem p hq)
            · simp only [List.map_append, hmap, List.map_cons, List.map_nil]
              simp [promoteFeature_props, hlk]
            · intro q hq
              rcases List.mem_append.mp hq with hmem2 | heq
              · exact hlst q hmem2
              · have : q = (p.1, promoteFeature p.2) := by simpa using heq
                subst this
                exact promoteFeature_lst p.2 (hwf p (List.mem_cons_self p l))

/-- C7: for every well-formed Segmentation with hashable grouping values
(the data model restricts property values to hashable scalars),
merge_classes succeeds and returns exactly one output feature per
distinct value of properties[key] occurring among the features, in
first-appearance order of those values; features lacking the key
contribute no output feature. Stated via the grouping values: the output
features' key values are the first-seen deduplication of the input
features' key values, and the output length is the number of distinct
values. -/
theorem C7_merge_one_feature_per_distinct_value (kw : String) (fs : List Feature)
    (hwf : wfSeg fs = true)
    (hh : (fs.filterMap (fun f => f.props.lookup kw)).all PVal.hashable = true) :
    ∃ out, merge_classes kw fs = some out ∧
      out.map (fun f => f.props.lookup kw)
        = (seenFold [] (fs.filterMap (fun f => f.props.lookup kw))).map some ∧
      out.length = (seenFold [] (fs.filterMap (fun f => f.props.lookup kw))).length := by
  have henum : fs.enum.filterMap (fun p => p.2.props.lookup kw)
      = fs.filterMap (fun f => f.props.lookup kw) :=
    filterMap_snd_enumFrom (fun f => f.props.lookup kw) 0 fs
  obtain ⟨out2, h1, h2, _⟩ := mergeFold_spec kw fs.enum [] []
    (fun p hp => by
      have hm : p.2 ∈ fs := snd_mem_of_mem_enumFrom fs 0 p hp
      exact List.all_eq_true.mp (by simpa [wfSeg] using hwf) p.2 hm)
    (fun p hp v hlkv => by
      have hm : p.2 ∈ fs := snd_mem_of_mem_enumFrom fs 0 p hp
      have hmem : v ∈ fs.filterMap (fun f => f.props.lookup kw) :=
        List.mem_filterMap.mpr ⟨p.2, hm, hlkv⟩
      exact List.all_eq_true.mp hh v hmem)
    rfl
    (fun q hq => by simp at hq)
  rw [henum] at h1 h2
  refine ⟨out2.map Prod.snd, ?_, ?_, ?_⟩
  · simp [merge_classes, h1]
  · rw [List.map_map]
    simpa [Function.comp] using h2
  · have hlen := congrArg List.length h2
    simpa using hlen

/-- A third concrete feature sharing the class of `polyFeatureA`. -/
def polyFeatureC : Feature :=
  ⟨[("class", .str "a")], "Polygon", .lst [.lst [.lst [.num 9, .num 9]]]⟩

/-- A concrete feature lacking the grouping key. -/
def featureNoKey : Feature :=
  ⟨[("other", .int 3)], "Polygon", .lst []⟩

theorem C7_merge_one_feature_per_distinct_value_witness :
    wfSeg [polyFeatureA, polyFeatureC, mpolyFeatureB, featureNoKey] = true ∧
      (([polyFeatureA, polyFeatureC, mpolyFeatureB, featureNoKey].filterMap
        (fun f => f.props.lookup "class")).all PVal.hashable = true) ∧
      ∃ out, merge_classes "class" [polyFeatureA, polyFeatureC, mpolyFeatureB, featureNoKey]
          = some out ∧
        out.map (fun f => f.props.lookup "class")
          = (seenFold [] ([polyFeatureA, polyFeatureC, mpolyFeatureB, featureNoKey].filterMap
              (fun f => f.props.lookup "class"))).map some ∧
        out.length
          = (seenFold [] ([polyFeatureA, polyFeatureC, mpolyFeatureB, featureNoKey].filterMap
              (fun f => f.props.lookup "class"))).length :=
  ⟨by decide, by decide,
    C7_merge_one_feature_per_distinct_value "class"
      [polyFeatureA, polyFeatureC, mpolyFeatureB, featureNoKey] (by decide) (by decide)⟩

/-- C4 (code bug evidence): the claim says merge_classes and
swap_coordinates leave the input Segmentation unchanged; the code
mutates it. For the one-feature Polygon segmentation [polyFeatureA],
after merge_classes the input feature has geometry type tag MultiPolygon
and wrapped coordinates (it is the aliased accumulator), and after
swap_coordinates the input feature has its coordinates wrapped one
nesting level deeper; both post-states differ from the input. -/
theorem C4_merge_swap_mutate_input :
    merge_classes_post "class" [polyFeatureA]
        = some [⟨[("class", .str "a")], "MultiPolygon",
            .lst [.lst [.lst [.lst [.num 1, .num 2], .lst [.num 3, .num 4]]]]⟩] ∧
      merge_classes_post "class" [polyFeatureA] ≠ some [polyFeatureA] ∧
      swap_coordinates_post [polyFeatureA]
        = [⟨[("class", .str "a")], "Polygon",
            .lst [.lst [.lst [.lst [.num 1, .num 2], .lst [.num 3, .num 4]]]]⟩] ∧
      swap_coordinates_post [polyFeatureA] ≠ [polyFeatureA] := by
  refine ⟨by decide, by decide, by decide, by decide⟩

/-! ## get_min_max_values (segmentation.py lines 124-142)

For every feature the code iterates over the TOP level of
`geometry.coordinates` (rings of a Polygon, but whole polygons of a
MultiPolygon), applies `np.min(np.asarray(a), axis=0)` and
`np.max(..., axis=0)`, indexes the result with [0] and [1], collects the
four lists and finally takes Python `min` or `max` of each list. The
numpy reduction is modelled for rectangular arrays (elementwise fold of
min/max over the first axis, failing on shape mismatch, on an empty axis
and on scalars); Python `min`/`max` compare with `<` / `>`, which raises
for numpy arrays of length two or more (ambiguous truth value). -/

mutual

/-- Elementwise combination of two equally shaped numpy arrays. -/
def npElemOp (op : Int → Int → Int) : NList → NList → Option NList
  | .num a, .num b => some (.num (op a b))
  | .lst as, .lst bs => (npElemOpList op as bs).map NList.lst
  | _, _ => none

/-- Elementwise combination of two rows of equal length. -/
def npElemOpList (op : Int → Int → Int) : List NList → List NList → Option (List NList)
  | [], [] => some []
  | a :: as, b :: bs => do
      let c ← npElemOp op a b
      let cs ← npElemOpList op as bs
      pure (c :: cs)
  | _, _ => none

end

/-- Fold of the elementwise operation over the remaining rows. -/
def npFoldOp (op : Int → Int → Int) : List NList → NList → Option NList
  | [], acc => some acc
  | x :: xs, acc => do
      let acc2 ← npElemOp op acc x
      npFoldOp op xs acc2

/-- `np.min(np.asarray(a), axis=0)` / `np.max(..., axis=0)`: reduce the
first axis; reducing a scalar or an empty axis raises. -/
def npReduceAxis0 (op : Int → Int → Int) : NList → Option NList
  | .num _ => none
  | .lst [] => none
  | .lst (x :: xs) => npFoldOp op xs x

/-- Indexing the reduction result; indexing a scalar raises. -/
def npIndex (i : Nat) : NList → Option NList
  | .num _ => none
  | .lst xs => xs[i]?

/-- The four values contributed by one entry of the top-level coordinate
list: min[0], min[1], max[0], max[1]. -/
def entryFor (ca : NList) : Option (NList × NList × NList × NList) := do
  let mn ← npReduceAxis0 min ca
  let mx ← npReduceAxis0 max ca
  let a ← npIndex 0 mn
  let b ← npIndex 1 mn
  let c ← npIndex 0 mx
  let d ← npIndex 1 mx
  pure (a, b, c, d)

/-- One feature's contributions: one entry per element of the top-level
coordinate list (iterating a non-list raises). -/
def collectFeature (f : Feature) : Option (List (NList × NList × NList × NList)) :=
  match f.coords with
  | .num _ => none
  | .lst cas => optionMapAll entryFor cas

/-- Python truth value of a `<` comparison: only number-number
comparisons produce a usable truth value; comparing numpy arrays of two
or more entries elementwise raises on conversion to bool (all collected
arrays here have two entries, one per coordinate axis). -/
def pyLt : NList → NList → Option Bool
  | .num a, .num b => some (decide (a < b))
  | _, _ => none

/-- Python truth value of a `>` comparison, same restrictions. -/
def pyGt : NList → NList → Option Bool
  | .num a, .num b => some (decide (a > b))
  | _, _ => none

/-- The loop inside Python `min`: keep the current best, replace it when
the next element compares smaller. -/
def pyMinLoop : List NList → NList → Option NList
  | [], best => some best
  | y :: ys, best => do
      let b ← pyLt y best
      pyMinLoop ys (if b then y else best)

/-- Python `min` over a list; empty input raises. -/
def pyMinList : List NList → Option NList
  | [] => none
  | x :: xs => pyMinLoop xs x

/-- The loop inside Python `max`. -/
def pyMaxLoop : List NList → NList → Option NList
  | [], best => some best
  | y :: ys, best => do
      let b ← pyGt y best
      pyMaxLoop ys (if b then y else best)

/-- Python `max` over a list; empty input raises. -/
def pyMaxList : List NList → Option NList
  | [] => none
  | x :: xs => pyMaxLoop xs x

/-- The dictionary returned by get_min_max_values. -/
structure BoundaryEdges where
  minX : NList
  minY : NList
  maxX : NList
  maxY : NList
deriving DecidableEq

/-- get_min_max_values: collect the per-entry reductions of every
feature, then reduce each of the four lists with Python min / max. -/
def get_min_max_values (fs : List Feature) : Option BoundaryEdges := do
  let entries ← (optionMapAll collectFeature fs).map List.flatten
  let mnx ← pyMinList (entries.map (fun e => e.1))
  let mny ← pyMinList (entries.map (fun e => e.2.1))
  let mxx ← pyMaxList (entries.map (fun e => e.2.2.1))
  let mxy ← pyMaxList (entries.map (fun e => e.2.2.2))
  pure ⟨mnx, mny, mxx, mxy⟩

/-! ## Specification-side views of the coordinate data for C2 -/

/-- The x entry of a coordinate pair (0 for non-pairs, unused there). -/
def pairX : NList → Int
  | .lst [.num x, .num _] => x
  | _ => 0

/-- The y entry of a coordinate pair. -/
def pairY : NList → Int
  | .lst [.num _, .num y] => y
  | _ => 0

/-- The number held by a scalar entry. -/
def numOf : NList → Int
  | .num n => n
  | _ => 0

/-- The points of a ring. -/
def ringPts : NList → List NList
  | .lst cs => cs
  | .num _ => []

/-- The top-level coordinate entries of a feature (the rings of a
Polygon). -/
def ringsOf (f : Feature) : List NList :=
  match f.coords with
  | .lst rs => rs
  | .num _ => []

/-- All rings of a segmentation, in order. -/
def segRings (fs : List Feature) : List NList :=
  (fs.map ringsOf).flatten

/-- All x coordinates of all points of all rings of all features. -/
def segXs (fs : List Feature) : List Int :=
  ((segRings fs).map (fun r => (ringPts r).map pairX)).flatten

/-- All y coordinates of all points of all rings of all features. -/
def segYs (fs : List Feature) : List Int :=
  ((segRings fs).map (fun r => (ringPts r).map pairY)).flatten

/-- Running minimum of an entry over a nonempty ring. -/
def ringFoldMin (g : NList → Int) (r : NList) : Int :=
  match ringPts r with
  | [] => 0
  | c :: cs => cs.foldl (fun a d => min a (g d)) (g c)

/-- Running maximum of an entry over a nonempty ring. -/
def ringFoldMax (g : NList → Int) (r : NList) : Int :=
  match ringPts r with
  | [] => 0
  | c :: cs => cs.foldl (fun a d => max a (g d)) (g c)

/-- Running minimum of the x entries of a nonempty ring. -/
def ringMinX (r : NList) : Int := ringFoldMin pairX r

/-- Running minimum of the y entries of a nonempty ring. -/
def ringMinY (r : NList) : Int := ringFoldMin pairY r

/-- Running maximum of the x entries of a nonempty ring. -/
def ringMaxX (r : NList) : Int := ringFoldMax pairX r

/-- Running maximum of the y entries of a nonempty ring. -/
def ringMaxY (r : NList) : Int := ringFoldMax pairY r

/-- The four scalars the code derives from one nonempty ring of pairs. -/
def ringEntry (r : NList) : NList × NList × NList × NList :=
  (.num (ringMinX r), .num (ringMinY r), .num (ringMaxX r), .num (ringMaxY r))

theorem isPair_elim (c : NList) (h : c.isPair = true) :
    ∃ x y, c = NList.lst [.num x, .num y] := by
  unfold NList.isPair at h
  split at h
  · next x y => exact ⟨x, y, rfl⟩
  · exact absurd h (by simp)

theorem optionMapAll_eq_map {α β : Type} (g : α → Option β) (h : α → β) :
    ∀ l : List α, (∀ x ∈ l, g x = some (h x)) → optionMapAll g l = some (l.map h) := by
  intro l
  induction l with
  | nil => intro _; rfl
  | cons x xs ih =>
      intro hx
      simp [optionMapAll_cons, hx x (List.mem_cons_self x xs),
        ih (fun y hy => hx y (List.mem_cons_of_mem x hy))]

theorem listMin_le : ∀ (l : List Int) (a : Int),
    l.foldl min a ≤ a ∧ ∀ x ∈ l, l.foldl min a ≤ x := by
  intro l
  induction l with
  | nil => intro a; simp
  | cons x xs ih =>
      intro a
      simp only [List.foldl_cons]
      obtain ⟨h1, h2⟩ := ih (min a x)
      refine ⟨le_trans h1 (min_le_left a x), ?_⟩
      intro y hy
      rcases List.mem_cons.mp hy with h | h
      · subst h; exact le_trans h1 (min_le_right a y)
      · exact h2 y h

theorem listMin_mem : ∀ (l : List Int) (a : Int),
    l.foldl min a = a ∨ l.foldl min a ∈ l := by
  intro l
  induction l with
  | nil => intro a; exact Or.inl rfl
  | cons x xs ih =>
      intro a
      simp only [List.foldl_cons]
      rcases ih (min a x) with h | h
      · rcases min_choice a x with h2 | h2
        · exact Or.inl (h.trans h2)
        · exact Or.inr (List.mem_cons.mpr (Or.inl (h.trans h2)))
      · exact Or.inr (List.mem_cons.mpr (Or.inr h))

theorem listMax_ge : ∀ (l : List Int) (a : Int),
    a ≤ l.foldl max a ∧ ∀ x ∈ l, x ≤ l.foldl max a := by
  intro l
  induction l with
  | nil => intro a; simp
  | cons x xs ih =>
      intro a
      simp only [List.foldl_cons]
      obtain ⟨h1, h2⟩ := ih (max a x)
      refine ⟨le_trans (le_max_left a x) h1, ?_⟩
      intro y hy
      rcases List.mem_cons.mp hy with h | h
      · subst h; exact le_trans (le_max_right a y) h1
      · exact h2 y h

theorem listMax_mem : ∀ (l : List Int) (a : Int),
    l.foldl max a = a ∨ l.foldl max a ∈ l := by
  intro l
  induction l with
  | nil => intro a; exact Or.inl rfl
  | cons x xs ih =>
      intro a
      simp only [List.foldl_cons]
      rcases ih (max a x) with h | h
      · rcases max_choice a x with h2 | h2
        · exact Or.inl (h.trans h2)
        · exact Or.inr (List.mem_cons.mpr (Or.inl (h.trans h2)))
      · exact Or.inr (List.mem_cons.mpr (Or.inr h))

theorem npElemOp_nums (op : Int → Int → Int) (x1 y1 x2 y2 : Int) :
    npElemOp op (.lst [.num x1, .num y1]) (.lst [.num x2, .num y2])
      = some (.lst [.num (op x1 x2), .num (op y1 y2)]) := by
  simp [npElemOp, npElemOpList]

theorem npFoldOp_pairs (op : Int → Int → Int) :
    ∀ (cs : List NList) (ax ay : Int), (∀ c ∈ cs, c.isPair = true) →
      npFoldOp op cs (.lst [.num ax, .num ay])
        = some (.lst [.num (cs.foldl (fun a c => op a (pairX c)) ax),
            .num (cs.foldl (fun a c => op a (pairY c)) ay)]) := by
  intro cs
  induction cs with
  | nil => intro ax ay _; rfl
  | cons c cs ih =>
      intro ax ay h
      obtain ⟨x, y, rfl⟩ := isPair_elim c (h c (List.mem_cons_self c cs))
      simp only [npFoldOp, npElemOp_nums, Option.some_bind, List.foldl_cons]
      simpa [pairX, pairY] using ih (op ax x) (op ay y)
        (fun d hd => h d (List.mem_cons_of_mem _ hd))

theorem entryFor_ring (r : NList) (hr : r.isRing = true) (hne : ringPts r ≠ []) :
    entryFor r = some (ringEntry r) := by
  cases r with
  | num n => simp [ringPts] at hne
  | lst cs =>
      simp only [NList.isRing, List.all_eq_true, decide_eq_true_eq] at hr
      cases cs with
      | nil => simp [ringPts] at hne
      | cons c cs =>
          obtain ⟨x0, y0, rfl⟩ := isPair_elim c (hr c (List.mem_cons_self c cs))
          have hmin := npFoldOp_pairs min cs x0 y0
            (fun d hd => hr d (List.mem_cons_of_mem _ hd))
          have hmax := npFoldOp_pairs max cs x0 y0
            (fun d hd => hr d (List.mem_cons_of_mem _ hd))
          simp only [entryFor, npReduceAxis0, hmin, hmax, Option.some_bind, npIndex]
          simp [ringEntry, ringMinX, ringMinY, ringMaxX, ringMaxY, ringFoldMin, ringFoldMax,
            ringPts, pairX, pairY]

theorem collectFeature_poly (f : Feature) (hr : f.coords.isRingList = true)
    (hne : ∀ r ∈ ringsOf f, ringPts r ≠ []) :
    collectFeature f = some ((ringsOf f).map ringEntry) := by
  cases hco : f.coords with
  | num n => rw [hco] at hr; simp [NList.isRingList] at hr
  | lst rs =>
      rw [hco] at hr
      simp only [NList.isRingList, List.all_eq_true, decide_eq_true_eq] at hr
      have hrs : ringsOf f = rs := by simp [ringsOf, hco]
      rw [hrs] at hne
      simp only [collectFeature, hco, hrs]
      exact optionMapAll_eq_map entryFor ringEntry rs
        (fun r hmem => entryFor_ring r (hr r hmem) (hne r hmem))

theorem pyMinLoop_nums : ∀ (ys : List NList) (a : Int), (∀ y ∈ ys, ∃ n, y = NList.num n) →
    pyMinLoop ys (.num a) = some (.num (ys.foldl (fun b y => min b (numOf y)) a)) := by
  intro ys
  induction ys with
  | nil => intro a _; rfl
  | cons y ys ih =>
      intro a h
      obtain ⟨n, rfl⟩ := h y (List.mem_cons_self y ys)
      have hrec := ih (min a n) (fun z hz => h z (List.mem_cons_of_mem _ hz))
      simp only [pyMinLoop, pyLt, Option.bind_eq_bind, Option.some_bind, decide_eq_true_eq]
      split
      · next hlt =>
          have hm : NList.num n = NList.num (min a n) := by
            have h2 : min a n = n := by omega
            rw [h2]
          rw [hm]
          simpa [numOf] using hrec
      · next hlt =>
          have hm : NList.num a = NList.num (min a n) := by
            have h2 : min a n = a := by omega
            rw [h2]
          rw [hm]
          simpa [numOf] using hrec

theorem pyMaxLoop_nums : ∀ (ys : List NList) (a : Int), (∀ y ∈ ys, ∃ n, y = NList.num n) →
    pyMaxLoop ys (.num a) = some (.num (ys.foldl (fun b y => max b (numOf y)) a)) := by
  intro ys
  induction ys with
  | nil => intro a _; rfl
  | cons y ys ih =>
      intro a h
      obtain ⟨n, rfl⟩ := h y (List.mem_cons_self y ys)
      have hrec := ih (max a n) (fun z hz => h z (List.mem_cons_of_mem _ hz))
      simp only [pyMaxLoop, pyGt, Option.bind_eq_bind, Option.some_bind, decide_eq_true_eq]
      split
      · next hlt =>
          have hm : NList.num n = NList.num (max a n) := by
            have h2 : max a n = n := by omega
            rw [h2]
          rw [hm]
          simpa [numOf] using hrec
      · next hlt =>
          have hm : NList.num a = NList.num (max a n) := by
            have h2 : max a n = a := by omega
            rw [h2]
          rw [hm]
          simpa [numOf] using hrec

theorem pyMinList_chars (l : List NList) (hl : l ≠ [])
    (hn : ∀ y ∈ l, ∃ n, y = NList.num n) :
    ∃ m, pyMinList l = some (.num m) ∧ NList.num m ∈ l ∧
      ∀ y ∈ l, ∀ n, y = NList.num n → m ≤ n := by
  cases l with
  | nil => exact absurd rfl hl
  | cons x xs =>
      obtain ⟨a, rfl⟩ := hn x (List.mem_cons_self x xs)
      refine ⟨xs.foldl (fun b y => min b (numOf y)) a, ?_, ?_, ?_⟩
      · exact pyMinLoop_nums xs a (fun z hz => hn z (List.mem_cons_of_mem _ hz))
      · rw [show (fun b y => min b (numOf y)) = (fun b y => min b ((fun z => numOf z) y)) from rfl,
          ← List.foldl_map]
        rcases listMin_mem (xs.map numOf) a with h | h
        · rw [h]; exact List.mem_cons_self _ _
        · obtain ⟨z, hz, hzz⟩ := List.mem_map.mp h
          obtain ⟨n, rfl⟩ := hn z (List.mem_cons_of_mem _ hz)
          rw [← hzz]
          exact List.mem_cons_of_mem _ (by simpa [numOf] using hz)
      · intro y hy n hyn
        subst hyn
        rw [show (fun b y => min b (numOf y)) = (fun b y => min b ((fun z => numOf z) y)) from rfl,
          ← List.foldl_map]
        obtain ⟨h1, h2⟩ := listMin_le (xs.map numOf) a
        rcases List.mem_cons.mp hy with h | h
        · have hna : n = a := by simpa [numOf] using congrArg numOf h
          rw [hna]
          exact h1
        · exact h2 n (List.mem_map.mpr ⟨.num n, h, rfl⟩)

theorem pyMaxList_chars (l : List NList) (hl : l ≠ [])
    (hn : ∀ y ∈ l, ∃ n, y = NList.num n) :
    ∃ m, pyMaxList l = some (.num m) ∧ NList.num m ∈ l ∧
      ∀ y ∈ l, ∀ n, y = NList.num n → n ≤ m := by
  cases l with
  | nil => exact absurd rfl hl
  | cons x xs =>
      obtain ⟨a, rfl⟩ := hn x (List.mem_cons_self x xs)
      refine ⟨xs.foldl (fun b y => max b (numOf y)) a, ?_, ?_, ?_⟩
      · exact pyMaxLoop_nums xs a (fun z hz => hn z (List.mem_cons_of_mem _ hz))
      · rw [show (fun b y => max b (numOf y)) = (fun b y => max b ((fun z => numOf z) y)) from rfl,
          ← List.foldl_map]
        rcases listMax_mem (xs.map numOf) a with h | h
        · rw [h]; exact List.mem_cons_self _ _
        · obtain ⟨z, hz, hzz⟩ := List.mem_map.mp h
          obtain ⟨n, rfl⟩ := hn z (List.mem_cons_of_mem _ hz)
          rw [← hzz]
          exact List.mem_cons_of_mem _ (by simpa [numOf] using hz)
      · intro y hy n hyn
        subst hyn
        rw [show (fun b y => max b (numOf y)) = (fun b y => max b ((fun z => numOf z) y)) from rfl,
          ← List.foldl_map]
        obtain ⟨h1, h2⟩ := listMax_ge (xs.map numOf) a
        rcases List.mem_cons.mp hy with h | h
        · have hna : n = a := by simpa [numOf] using congrArg numOf h
          rw [hna]
          exact h1
        · exact h2 n (List.mem_map.mpr ⟨.num n, h, rfl⟩)

theorem ringFoldMin_chars (g : NList → Int) (r : NList) (hne : ringPts r ≠ []) :
    ringFoldMin g r ∈ (ringPts r).map g ∧ ∀ x ∈ (ringPts r).map g, ringFoldMin g r ≤ x := by
  cases hsh : ringPts r with
  | nil => exact absurd hsh hne
  | cons c cs =>
      have hdef : ringFoldMin g r = (cs.map g).foldl min (g c) := by
        simp only [ringFoldMin, hsh, List.foldl_map]
      rw [hdef]
      constructor
      · rcases listMin_mem (cs.map g) (g c) with h | h
        · rw [h]; simp
        · simp only [List.map_cons, List.mem_cons]
          exact Or.inr h
      · intro x hx
        obtain ⟨h1, h2⟩ := listMin_le (cs.map g) (g c)
        simp only [List.map_cons, List.mem_cons] at hx
        rcases hx with h | h
        · exact h ▸ h1
        · exact h2 x h

theorem ringFoldMax_chars (g : NList → Int) (r : NList) (hne : ringPts r ≠ []) :
    ringFoldMax g r ∈ (ringPts r).map g ∧ ∀ x ∈ (ringPts r).map g, x ≤ ringFoldMax g r := by
  cases hsh : ringPts r with
  | nil => exact absurd hsh hne
  | cons c cs =>
      have hdef : ringFoldMax g r = (cs.map g).foldl max (g c) := by
        simp only [ringFoldMax, hsh, List.foldl_map]
      rw [hdef]
      constructor
      · rcases listMax_mem (cs.map g) (g c) with h | h
        · rw [h]; simp
        · simp only [List.map_cons, List.mem_cons]
          exact Or.inr h
      · intro x hx
        obtain ⟨h1, h2⟩ := listMax_ge (cs.map g) (g c)
        simp only [List.map_cons, List.mem_cons] at hx
        rcases hx with h | h
        · exact h ▸ h1
        · exact h2 x h

theorem pyMin_over_rings (rs : List NList) (g : NList → Int) (hne : rs ≠ [])
    (hsh : ∀ r ∈ rs, ringPts r ≠ []) :
    ∃ m, pyMinList (rs.map (fun r => NList.num (ringFoldMin g r))) = some (.num m) ∧
      m ∈ (rs.map (fun r => (ringPts r).map g)).flatten ∧
      ∀ x ∈ (rs.map (fun r => (ringPts r).map g)).flatten, m ≤ x := by
  obtain ⟨m, hm1, hm2, hm3⟩ := pyMinList_chars (rs.map (fun r => NList.num (ringFoldMin g r)))
    (by simpa using hne) (by intro y hy; obtain ⟨r, _, rfl⟩ := List.mem_map.mp hy; exact ⟨_, rfl⟩)
  obtain ⟨r, hr, hreq⟩ := List.mem_map.mp hm2
  have hmr : m = ringFoldMin g r := (NList.num.injEq _ _).mp hreq.symm
  obtain ⟨hc1, hc2⟩ := ringFoldMin_chars g r (hsh r hr)
  refine ⟨m, hm1, ?_, ?_⟩
  · exact List.mem_flatten.mpr ⟨(ringPts r).map g, List.mem_map.mpr ⟨r, hr, rfl⟩, hmr ▸ hc1⟩
  · intro x hx
    obtain ⟨xl, hxl, hxmem⟩ := List.mem_flatten.mp hx
    obtain ⟨r2, hr2, rfl⟩ := List.mem_map.mp hxl
    obtain ⟨_, hd2⟩ := ringFoldMin_chars g r2 (hsh r2 hr2)
    have hb : m ≤ ringFoldMin g r2 :=
      hm3 (.num (ringFoldMin g r2)) (List.mem_map.mpr ⟨r2, hr2, rfl⟩) _ rfl
    exact le_trans hb (hd2 x hxmem)

theorem pyMax_over_rings (rs : List NList) (g : NList → Int) (hne : rs ≠ [])
    (hsh : ∀ r ∈ rs, ringPts r ≠ []) :
    ∃ m, pyMaxList (rs.map (fun r => NList.num (ringFoldMax g r))) = some (.num m) ∧
      m ∈ (rs.map (fun r => (ringPts r).map g)).flatten ∧
      ∀ x ∈ (rs.map (fun r => (ringPts r).map g)).flatten, x ≤ m := by
  obtain ⟨m, hm1, hm2, hm3⟩ := pyMaxList_chars (rs.map (fun r => NList.num (ringFoldMax g r)))
    (by simpa using hne) (by intro y hy; obtain ⟨r, _, rfl⟩ := List.mem_map.mp hy; exact ⟨_, rfl⟩)
  obtain ⟨r, hr, hreq⟩ := List.mem_map.mp hm2
  have hmr : m = ringFoldMax g r := (NList.num.injEq _ _).mp hreq.symm
  obtain ⟨hc1, hc2⟩ := ringFoldMax_chars g r (hsh r hr)
  refine ⟨m, hm1, ?_, ?_⟩
  · exact List.mem_flatten.mpr ⟨(ringPts r).map g, List.mem_map.mpr ⟨r, hr, rfl⟩, hmr ▸ hc1⟩
  · intro x hx
    obtain ⟨xl, hxl, hxmem⟩ := List.mem_flatten.mp hx
    obtain ⟨r2, hr2, rfl⟩ := List.mem_map.mp hxl
    obtain ⟨_, hd2⟩ := ringFoldMax_chars g r2 (hsh r2 hr2)
    have hb : ringFoldMax g r2 ≤ m :=
      hm3 (.num (ringFoldMax g r2)) (List.mem_map.mpr ⟨r2, hr2, rfl⟩) _ rfl
    exact le_trans (hd2 x hxmem) hb

/-- C2 amended: for every non-empty Segmentation all of whose features
are Polygons with at least one ring, every ring non-empty and made of 2D
pairs, get_min_max_values returns scalars equal to the true minima and
maxima of the X and Y coordinates over every point of every ring of
every feature, and consequently minX ≤ maxX and minY ≤ maxY. (The
original claim also covered MultiPolygon features; the code is wrong for
those, see the counterexample.) -/
theorem C2_boundingBox_extrema_on_polygons (fs : List Feature)
    (hne : fs ≠ [])
    (hpoly : ∀ f ∈ fs, f.gtype = "Polygon" ∧ f.coords.isRingList = true)
    (hrings : ∀ f ∈ fs, ringsOf f ≠ [])
    (hpts : ∀ r ∈ segRings fs, ringPts r ≠ []) :
    ∃ mx my Mx My,
      get_min_max_values fs = some ⟨.num mx, .num my, .num Mx, .num My⟩ ∧
      mx ∈ segXs fs ∧ (∀ x ∈ segXs fs, mx ≤ x) ∧
      my ∈ segYs fs ∧ (∀ y ∈ segYs fs, my ≤ y) ∧
      Mx ∈ segXs fs ∧ (∀ x ∈ segXs fs, x ≤ Mx) ∧
      My ∈ segYs fs ∧ (∀ y ∈ segYs fs, y ≤ My) ∧
      mx ≤ Mx ∧ my ≤ My := by
  have hE : optionMapAll collectFeature fs
      = some (fs.map (fun f => (ringsOf f).map ringEntry)) :=
    optionMapAll_eq_map _ _ fs (fun f hf =>
      collectFeature_poly f (hpoly f hf).2
        (fun r hr => hpts r (List.mem_flatten.mpr
          ⟨ringsOf f, List.mem_map.mpr ⟨f, hf, rfl⟩, hr⟩)))
  have hflat : (fs.map (fun f => (ringsOf f).map ringEntry)).flatten
      = (segRings fs).map ringEntry := by
    simp [segRings, List.map_flatten, List.map_map, Function.comp_def]
  have hSR : segRings fs ≠ [] := by
    cases fs with
    | nil => exact absurd rfl hne
    | cons f fs2 =>
        cases hr0 : ringsOf f with
        | nil => exact absurd hr0 (hrings f (List.mem_cons_self f fs2))
        | cons r rs0 =>
            have hrmem : r ∈ ringsOf f := by
              rw [hr0]
              exact List.mem_cons_self r rs0
            exact List.ne_nil_of_mem (List.mem_flatten.mpr
              ⟨ringsOf f, List.mem_map.mpr ⟨f, List.mem_cons_self f fs2, rfl⟩, hrmem⟩)
  obtain ⟨mx, hmx1, hmx2, hmx3⟩ := pyMin_over_rings (segRings fs) pairX hSR hpts
  obtain ⟨my, hmy1, hmy2, hmy3⟩ := pyMin_over_rings (segRings fs) pairY hSR hpts
  obtain ⟨Mx, hMx1, hMx2, hMx3⟩ := pyMax_over_rings (segRings fs) pairX hSR hpts
  obtain ⟨My, hMy1, hMy2, hMy3⟩ := pyMax_over_rings (segRings fs) pairY hSR hpts
  have hm1 : ((segRings fs).map ringEntry).map (fun e => e.1)
      = (segRings fs).map (fun r => NList.num (ringFoldMin pairX r)) := by
    simp [List.map_map, ringEntry, ringMinX, Function.comp]
  have hm2 : ((segRings fs).map ringEntry).map (fun e => e.2.1)
      = (segRings fs).map (fun r => NList.num (ringFoldMin pairY r)) := by
    simp [List.map_map, ringEntry, ringMinY, Function.comp]
  have hm3 : ((segRings fs).map ringEntry).map (fun e => e.2.2.1)
      = (segRings fs).map (fun r => NList.num (ringFoldMax pairX r)) := by
    simp [List.map_map, ringEntry, ringMaxX, Function.comp]
  have hm4 : ((segRings fs).map ringEntry).map (fun e => e.2.2.2)
      = (segRings fs).map (fun r => NList.num (ringFoldMax pairY r)) := by
    simp [List.map_map, ringEntry, ringMaxY, Function.comp]
  refine ⟨mx, my, Mx, My, ?_, hmx2, hmx3, hmy2, hmy3, hMx2, hMx3, hMy2, hMy3,
    hmx3 Mx hMx2, hmy3 My hMy2⟩
  simp only [get_min_max_values, hE, Option.map_some', hflat, Option.bind_eq_bind,
    Option.some_bind, hm1, hm2, hm3, hm4, hmx1, hmy1, hMx1, hMy1, Option.pure_def]

/-- A concrete one-feature MultiPolygon segmentation: one polygon with a
single ring through the points (1,1) and (0,0). -/
def mpolyFeatureC2 : Feature :=
  ⟨[], "MultiPolygon", .lst [.lst [.lst [.lst [.num 1, .num 1], .lst [.num 0, .num 0]]]]⟩

/-- C2 counterexample: on the well-formed MultiPolygon segmentation
[mpolyFeatureC2] the true coordinate extrema are minX = minY = 0 and
maxX = maxY = 1 (its points are (1,1) and (0,0)), but get_min_max_values
reduces over whole polygons and indexes the result, producing the two
POINTS (1,1) and (0,0) as length-two arrays instead of the four scalar
extrema; in particular the returned minX is not the number 0. -/
theorem C2_counterexample_multipolygon :
    wfSeg [mpolyFeatureC2] = true ∧
    get_min_max_values [mpolyFeatureC2]
      = some ⟨.lst [.num 1, .num 1], .lst [.num 0, .num 0],
          .lst [.num 1, .num 1], .lst [.num 0, .num 0]⟩ ∧
    get_min_max_values [mpolyFeatureC2] ≠ some ⟨.num 0, .num 0, .num 1, .num 1⟩ := by
  exact ⟨by decide, by decide, by decide⟩

theorem C2_boundingBox_extrema_on_polygons_witness :
    ([polyFeatureA] ≠ ([] : List Feature)) ∧
      (∀ f ∈ [polyFeatureA], f.gtype = "Polygon" ∧ f.coords.isRingList = true) ∧
      (∀ f ∈ [polyFeatureA], ringsOf f ≠ []) ∧
      (∀ r ∈ segRings [polyFeatureA], ringPts r ≠ []) ∧
      (∃ mx my Mx My,
        get_min_max_values [polyFeatureA] = some ⟨.num mx, .num my, .num Mx, .num My⟩ ∧
        mx ∈ segXs [polyFeatureA] ∧ (∀ x ∈ segXs [polyFeatureA], mx ≤ x) ∧
        my ∈ segYs [polyFeatureA] ∧ (∀ y ∈ segYs [polyFeatureA], my ≤ y) ∧
        Mx ∈ segXs [polyFeatureA] ∧ (∀ x ∈ segXs [polyFeatureA], x ≤ Mx) ∧
        My ∈ segYs [polyFeatureA] ∧ (∀ y ∈ segYs [polyFeatureA], y ≤ My) ∧
        mx ≤ Mx ∧ my ≤ My) :=
  ⟨by decide, by decide, by decide, by decide,
    C2_boundingBox_extrema_on_polygons [polyFeatureA]
      (by decide) (by decide) (by decide) (by decide)⟩

/-! ## split_segmentation_classes (segmentation.py lines 172-233)

Candidate keys are those present in every feature (the whole key list of
the first feature when all key lists are equal, otherwise the keys whose
total occurrence count equals the number of features). For every feature
and every candidate key, the feature is inserted into the nested dict
under (key, value) — note `setdefault(value, Segmentation([feature]))`
followed by `append(feature)` inserts the FIRST feature of each value
twice. Keys whose sub-dict exceeds 20 entries are removed, an error is
raised when nothing remains, and each surviving sub-dict is sorted by
value. -/

/-- The error outcomes of split_segmentation_classes: `indexError` is
`keys_list[0]` on an empty feature list, `keyError` a missing property
lookup, `typeError` a str/int comparison inside `sorted`,
`noSuitableKey` the AdaptiveFilteringError the function raises itself. -/
inductive SplitErr where
  | indexError
  | keyError
  | typeError
  | noSuitableKey
deriving DecidableEq

/-- The per-feature property key lists. -/
def keysList (fs : List Feature) : List (List String) :=
  fs.map (fun f => f.props.map Prod.fst)

/-- `_all_equal` via `groupby`: every key list equals the first. -/
def allEqualKeys (l : List (List String)) : Bool :=
  match l with
  | [] => true
  | x :: xs => xs.all (· == x)

/-- First-seen deduplication for strings (Counter key order). -/
def seenFoldStr (acc : List String) (vs : List String) : List String :=
  vs.foldl (fun a v => if v ∈ a then a else a ++ [v]) acc

/-- The Counter-based fallback: keys whose total occurrence count across
all features equals the number of features. -/
def counterKeys (fs : List Feature) : List String :=
  let flat := (keysList fs).flatten
  (seenFoldStr [] flat).filter (fun k => flat.count k = fs.length)

/-- The candidate property keys; `keys_list[0]` raises on an empty
segmentation (the `_all_equal` branch is taken: groupby of an empty list
yields the defaults). -/
def property_keys (fs : List Feature) : Except SplitErr (List String) :=
  if allEqualKeys (keysList fs) then
    match fs with
    | [] => .error .indexError
    | f :: _ => .ok (f.props.map Prod.fst)
  else .ok (counterKeys fs)

/-- `feature["properties"][key]`. -/
def getProp (f : Feature) (k : String) : Except SplitErr PVal :=
  match f.props.lookup k with
  | some v => .ok v
  | none => .error .keyError

/-- The nested dictionary, both levels in insertion order. -/
abbrev SplitDict : Type :=
  List (String × List (PVal × List Feature))

instance {α β : Type} [DecidableEq α] [DecidableEq β] : DecidableEq (Except α β) := fun a b =>
  match a, b with
  | .error x, .error y =>
      if h : x = y then .isTrue (by rw [h]) else .isFalse (by intro hc; cases hc; exact h rfl)
  | .error _, .ok _ => .isFalse (by intro hc; cases hc)
  | .ok _, .error _ => .isFalse (by intro hc; cases hc)
  | .ok x, .ok y =>
      if h : x = y then .isTrue (by rw [h]) else .isFalse (by intro hc; cases hc; exact h rfl)

/-- Insertion into the inner dict: a new value arrives with the feature
TWICE (once from `Segmentation([feature])`, once from the append); an
existing value has the feature appended once. -/
def splitInsertInner (m : List (PVal × List Feature)) (v : PVal) (f : Feature) :
    List (PVal × List Feature) :=
  match m with
  | [] => [(v, [f, f])]
  | (v2, l) :: rest =>
      if v2 = v then (v2, l ++ [f]) :: rest
      else (v2, l) :: splitInsertInner rest v f

/-- Insertion into the outer dict. -/
def splitInsert (d : SplitDict) (k : String) (v : PVal) (f : Feature) : SplitDict :=
  match d with
  | [] => [(k, [(v, [f, f])])]
  | (k2, m) :: rest =>
      if k2 = k then (k2, splitInsertInner m v f) :: rest
      else (k2, m) :: splitInsert rest k v f

/-- The inner loop over the candidate keys for one feature; unhashable
values are skipped. -/
def splitFeature (f : Feature) : List String → SplitDict → Except SplitErr SplitDict
  | [], d => .ok d
  | k :: ks, d => do
      let v ← getProp f k
      splitFeature f ks (if v.hashable then splitInsert d k v f else d)

/-- The outer loop over the features. -/
def splitAll : List Feature → List String → SplitDict → Except SplitErr SplitDict
  | [], _, d => .ok d
  | f :: fs, pk, d => do
      let d2 ← splitFeature f pk d
      splitAll fs pk d2

/-- Lexicographic comparison of code-point sequences (Python str `<`). -/
def charListLt : List Char → List Char → Bool
  | [], [] => false
  | [], _ :: _ => true
  | _ :: _, [] => false
  | c :: cs, d :: ds =>
      if c.toNat < d.toNat then true
      else if d.toNat < c.toNat then false
      else charListLt cs ds

/-- Python `<` between two property values used as dict keys: comparing
a str with an int raises. -/
def pvalLt : PVal → PVal → Except SplitErr Bool
  | .str a, .str b => .ok (charListLt a.data b.data)
  | .int a, .int b => .ok (decide (a < b))
  | _, _ => .error .typeError

/-- Insert an entry into an already sorted run (the comparisons `sorted`
performs; only the relative order of distinct keys matters). -/
def sortInsert (x : PVal × List Feature) :
    List (PVal × List Feature) → Except SplitErr (List (PVal × List Feature))
  | [] => .ok [x]
  | y :: ys => do
      let b ← pvalLt x.1 y.1
      if b then .ok (x :: y :: ys)
      else do
        let rest ← sortInsert x ys
        .ok (y :: rest)

/-- `sorted(split_dict[key].items())`. -/
def sortPairs : List (PVal × List Feature) → Except SplitErr (List (PVal × List Feature))
  | [] => .ok []
  | x :: xs => do
      let rest ← sortPairs xs
      sortInsert x rest

/-- Sorting every sub-dict. -/
def sortDict : SplitDict → Except SplitErr SplitDict
  | [] => .ok []
  | (k, m) :: rest => do
      let m2 ← sortPairs m
      let rest2 ← sortDict rest
      .ok ((k, m2) :: rest2)

/-- split_segmentation_classes: candidate keys, nested dict, removal of
keys with more than 20 distinct values, the NoSuitableKey error when
nothing remains, and the final per-key sort. -/
def split_segmentation_classes (fs : List Feature) : Except SplitErr SplitDict := do
  let pk ← property_keys fs
  let d ← splitAll fs pk []
  let d2 := d.filter (fun kv => decide (kv.2.length ≤ 20))
  if d2 = [] then .error .noSuitableKey
  else sortDict d2

/-- Five one-key features with class values A, A, B, B, C. -/
def fA1 : Feature := ⟨[("class", .str "A")], "Polygon", .lst [.lst [.lst [.num 0, .num 0]]]⟩

/-- Second feature of class A. -/
def fA2 : Feature := ⟨[("class", .str "A")], "Polygon", .lst [.lst [.lst [.num 1, .num 1]]]⟩

/-- First feature of class B. -/
def fB1 : Feature := ⟨[("class", .str "B")], "Polygon", .lst [.lst [.lst [.num 2, .num 2]]]⟩

/-- Second feature of class B. -/
def fB2 : Feature := ⟨[("class", .str "B")], "Polygon", .lst [.lst [.lst [.num 3, .num 3]]]⟩

/-- The only feature of class C. -/
def fC1 : Feature := ⟨[("class", .str "C")], "Polygon", .lst [.lst [.lst [.num 4, .num 4]]]⟩

/-- The 5-feature scenario segmentation of the claim. -/
def fiveSeg : List Feature := [fA1, fA2, fB1, fB2, fC1]

/-- C1 (code bug evidence): splitting the 5-feature Segmentation with
class values {A, A, B, B, C} does NOT yield sub-Segmentations with each
matching feature exactly once (sizes 2, 2, 1): because
`setdefault(value, Segmentation([feature]))["features"].append(feature)`
inserts the first feature of each value twice, the code yields sizes
3, 3, 2 with the first matching feature duplicated. -/
theorem C1_split_duplicates_first_feature :
    split_segmentation_classes fiveSeg
        = .ok [("class", [(.str "A", [fA1, fA1, fA2]), (.str "B", [fB1, fB1, fB2]),
            (.str "C", [fC1, fC1])])] ∧
      split_segmentation_classes fiveSeg
        ≠ .ok [("class", [(.str "A", [fA1, fA2]), (.str "B", [fB1, fB2]),
            (.str "C", [fC1])])] := by
  exact ⟨by decide, by decide⟩

/-- The candidate keys as a total function (only used where the feature
list is non-empty, so the IndexError branch cannot fire). -/
def pkOf (fs : List Feature) : List String :=
  if allEqualKeys (keysList fs) then
    match fs with
    | [] => []
    | f :: _ => f.props.map Prod.fst
  else counterKeys fs

/-- The per-feature insertion loop as a total function. -/
def splitFeatureT (f : Feature) (pk : List String) (d : SplitDict) : SplitDict :=
  pk.foldl (fun d k =>
    match f.props.lookup k with
    | some v => if v.hashable then splitInsert d k v f else d
    | none => d) d

/-- The nested dict as built by the double loop, before removal. -/
def buildDict (fs : List Feature) : SplitDict :=
  fs.foldl (fun d f => splitFeatureT f (pkOf fs) d) []

theorem property_keys_ok (fs : List Feature) (hne : fs ≠ []) :
    property_keys fs = .ok (pkOf fs) := by
  cases fs with
  | nil => exact absurd rfl hne
  | cons f l =>
      by_cases hae : allEqualKeys (keysList (f :: l)) = true
      · simp [property_keys, pkOf, hae]
      · simp [property_keys, pkOf, hae]

theorem except_ok_bind {ε α β : Type} (a : α) (f : α → Except ε β) :
    (Except.ok a >>= f : Except ε β) = f a := rfl

theorem lookup_isSome_of_mem_keys {l : List (String × PVal)} {k : String}
    (h : k ∈ l.map Prod.fst) : (l.lookup k).isSome = true := by
  induction l with
  | nil => simp at h
  | cons p rest ih =>
      cases hbeq : (k == p.1) with
      | true => simp [List.lookup, hbeq]
      | false =>
          simp only [List.map_cons, List.mem_cons] at h
          rcases h with h | h
          · rw [h] at hbeq
            simp at hbeq
          · simp only [List.lookup, hbeq]
            exact ih h

theorem sum_le_length : ∀ (l : List Nat), (∀ x ∈ l, x ≤ 1) → l.sum ≤ l.length := by
  intro l
  induction l with
  | nil => intro _; simp
  | cons x xs ih =>
      intro h
      simp only [List.sum_cons, List.length_cons]
      have h1 := h x (List.mem_cons_self x xs)
      have h2 := ih (fun y hy => h y (List.mem_cons_of_mem x hy))
      omega

theorem all_one_of_sum_eq_length :
    ∀ (l : List Nat), (∀ x ∈ l, x ≤ 1) → l.sum = l.length → ∀ x ∈ l, x = 1 := by
  intro l
  induction l with
  | nil => intro _ _ x hx; simp at hx
  | cons y ys ih =>
      intro hb hs x hx
      have h1 := hb y (List.mem_cons_self y ys)
      have h2 := sum_le_length ys (fun z hz => hb z (List.mem_cons_of_mem y hz))
      simp only [List.sum_cons, List.length_cons] at hs
      have hy : y = 1 := by omega
      have hsum : ys.sum = ys.length := by omega
      rcases List.mem_cons.mp hx with h | h
      · exact h ▸ hy
      · exact ih (fun z hz => hb z (List.mem_cons_of_mem y hz)) hsum x h

theorem counterKeys_mem_all (fs : List Feature)
    (hnd : ∀ f ∈ fs, (f.props.map Prod.fst).Nodup) :
    ∀ k ∈ counterKeys fs, ∀ f ∈ fs, k ∈ f.props.map Prod.fst := by
  intro k hk f hf
  unfold counterKeys at hk
  rw [List.mem_filter] at hk
  have hcount : ((keysList fs).flatten).count k = fs.length := by
    have := hk.2
    simpa using this
  rw [List.count_flatten] at hcount
  have hble : ∀ x ∈ (keysList fs).map (List.count k), x ≤ 1 := by
    intro x hx
    obtain ⟨kl, hkl, rfl⟩ := List.mem_map.mp hx
    obtain ⟨f2, hf2, rfl⟩ := List.mem_map.mp hkl
    exact List.nodup_iff_count_le_one.mp (hnd f2 hf2) k
  have hlen : ((keysList fs).map (List.count k)).length = fs.length := by
    simp [keysList]
  have hone : List.count k (f.props.map Prod.fst) = 1 := by
    refine all_one_of_sum_eq_length _ hble (by rw [hcount, hlen]) _ ?_
    exact List.mem_map.mpr ⟨f.props.map Prod.fst,
      List.mem_map.mpr ⟨f, hf, rfl⟩, rfl⟩
  exact List.count_pos_iff.mp (by omega)

theorem pkOf_mem_all (fs : List Feature) (hne : fs ≠ [])
    (hnd : ∀ f ∈ fs, (f.props.map Prod.fst).Nodup) :
    ∀ k ∈ pkOf fs, ∀ f ∈ fs, k ∈ f.props.map Prod.fst := by
  intro k hk f hf
  unfold pkOf at hk
  by_cases hae : allEqualKeys (keysList fs) = true
  · rw [if_pos hae] at hk
    cases fs with
    | nil => exact absurd rfl hne
    | cons f0 l =>
        rcases List.mem_cons.mp hf with h | h
        · subst h; exact hk
        · have hmem : f.props.map Prod.fst ∈ (keysList (f0 :: l)).tail :=
            List.mem_map.mpr ⟨f, h, rfl⟩
          simp only [keysList, List.map_cons, List.tail_cons] at hmem
          simp only [allEqualKeys, keysList, List.map_cons, List.all_eq_true] at hae
          have := hae (f.props.map Prod.fst) hmem
          rw [eq_of_beq this]
          exact hk
  · rw [if_neg hae] at hk
    exact counterKeys_mem_all fs hnd k hk f hf

theorem splitFeature_eq (f : Feature) : ∀ (pk : List String) (d : SplitDict),
    (∀ k ∈ pk, (f.props.lookup k).isSome = true) →
    splitFeature f pk d = .ok (splitFeatureT f pk d) := by
  intro pk
  induction pk with
  | nil => intro d _; rfl
  | cons k ks ih =>
      intro d h
      obtain ⟨v, hv⟩ := Option.isSome_iff_exists.mp (h k (List.mem_cons_self k ks))
      have hrec := ih (if v.hashable then splitInsert d k v f else d)
        (fun k2 hk2 => h k2 (List.mem_cons_of_mem k hk2))
      simp only [splitFeature, getProp, hv, except_ok_bind, hrec, splitFeatureT,
        List.foldl_cons]

theorem splitAll_eq (pk : List String) : ∀ (l : List Feature) (d : SplitDict),
    (∀ f ∈ l, ∀ k ∈ pk, (f.props.lookup k).isSome = true) →
    splitAll l pk d = .ok (l.foldl (fun d f => splitFeatureT f pk d) d) := by
  intro l
  induction l with
  | nil => intro d _; rfl
  | cons f l2 ih =>
      intro d h
      have h1 := splitFeature_eq f pk d (h f (List.mem_cons_self f l2))
      have h2 := ih (splitFeatureT f pk d) (fun g hg => h g (List.mem_cons_of_mem f hg))
      simp only [splitAll, h1, except_ok_bind, h2, List.foldl_cons]

theorem split_eq (fs : List Feature) (hne : fs ≠ [])
    (hnd : ∀ f ∈ fs, (f.props.map Prod.fst).Nodup) :
    split_segmentation_classes fs =
      (if (buildDict fs).filter (fun kv => decide (kv.2.length ≤ 20)) = []
        then .error .noSuitableKey
        else sortDict ((buildDict fs).filter (fun kv => decide (kv.2.length ≤ 20)))) := by
  have hpk := property_keys_ok fs hne
  have hall := splitAll_eq (pkOf fs) fs []
    (fun f hf k hk => lookup_isSome_of_mem_keys (pkOf_mem_all fs hne hnd k hk f hf))
  simp only [split_segmentation_classes, hpk, hall, except_ok_bind, buildDict]

theorem pvalLt_err : ∀ (a b : PVal) (e : SplitErr), pvalLt a b = .error e → e = .typeError := by
  intro a b e h
  cases a <;> cases b <;> simp [pvalLt] at h <;> exact h.symm

theorem sortInsert_spec (x : PVal × List Feature) :
    ∀ (ys zs : List (PVal × List Feature)), sortInsert x ys = .ok zs →
      zs.length = ys.length + 1 := by
  intro ys
  induction ys with
  | nil =>
      intro zs h
      cases h
      rfl
  | cons y ys ih =>
      intro zs h
      simp only [sortInsert] at h
      cases hlt : pvalLt x.1 y.1 with
      | error e => rw [hlt] at h; cases h
      | ok b =>
          rw [hlt, except_ok_bind] at h
          cases b with
          | true =>
              simp only [if_true] at h
              cases h
              rfl
          | false =>
              simp only [Bool.false_eq_true, if_false] at h
              cases hrec : sortInsert x ys with
              | error e => rw [hrec] at h; cases h
              | ok rest =>
                  rw [hrec, except_ok_bind] at h
                  cases h
                  simp [ih rest hrec]

theorem sortInsert_err (x : PVal × List Feature) :
    ∀ (ys : List (PVal × List Feature)) (e : SplitErr), sortInsert x ys = .error e →
      e = .typeError := by
  intro ys
  induction ys with
  | nil => intro e h; cases h
  | cons y ys ih =>
      intro e h
      simp only [sortInsert] at h
      cases hlt : pvalLt x.1 y.1 with
      | error e2 =>
          rw [hlt] at h
          cases h
          exact pvalLt_err x.1 y.1 _ hlt
      | ok b =>
          rw [hlt, except_ok_bind] at h
          cases b with
          | true => simp only [if_true] at h; cases h
          | false =>
              simp only [Bool.false_eq_true, if_false] at h
              cases hrec : sortInsert x ys with
              | error e2 =>
                  rw [hrec] at h
                  cases h
                  exact ih _ hrec
              | ok rest => rw [hrec, except_ok_bind] at h; cases h

theorem sortPairs_spec : ∀ (m m2 : List (PVal × List Feature)), sortPairs m = .ok m2 →
    m2.length = m.length := by
  intro m
  induction m with
  | nil => intro m2 h; cases h; rfl
  | cons x xs ih =>
      intro m2 h
      simp only [sortPairs] at h
      cases hrec : sortPairs xs with
      | error e => rw [hrec] at h; cases h
      | ok rest =>
          rw [hrec, except_ok_bind] at h
          have := sortInsert_spec x rest m2 h
          rw [this, ih rest hrec]
          rfl

theorem sortPairs_err : ∀ (m : List (PVal × List Feature)) (e : SplitErr),
    sortPairs m = .error e → e = .typeError := by
  intro m
  induction m with
  | nil => intro e h; cases h
  | cons x xs ih =>
      intro e h
      simp only [sortPairs] at h
      cases hrec : sortPairs xs with
      | error e2 =>
          rw [hrec] at h
          cases h
          exact ih _ hrec
      | ok rest =>
          rw [hrec, except_ok_bind] at h
          exact sortInsert_err x rest e h

theorem sortDict_spec : ∀ (d d2 : SplitDict), sortDict d = .ok d2 →
    ∀ kv ∈ d2, ∃ kv1 ∈ d, kv.2.length = kv1.2.length := by
  intro d
  induction d with
  | nil => intro d2 h kv hkv; cases h; simp at hkv
  | cons p rest ih =>
      intro d2 h kv hkv
      obtain ⟨k, m⟩ := p
      simp only [sortDict] at h
      cases h1 : sortPairs m with
      | error e => rw [h1] at h; cases h
      | ok m2 =>
          rw [h1, except_ok_bind] at h
          cases h2 : sortDict rest with
          | error e => rw [h2] at h; cases h
          | ok rest2 =>
              rw [h2, except_ok_bind] at h
              cases h
              rcases List.mem_cons.mp hkv with h | h
              · subst h
                exact ⟨(k, m), List.mem_cons_self _ _, sortPairs_spec m m2 h1⟩
              · obtain ⟨kv1, hkv1, hlen⟩ := ih rest2 h2 kv h
                exact ⟨kv1, List.mem_cons_of_mem _ hkv1, hlen⟩

theorem sortDict_err : ∀ (d : SplitDict) (e : SplitErr), sortDict d = .error e →
    e = .typeError := by
  intro d
  induction d with
  | nil => intro e h; cases h
  | cons p rest ih =>
      intro e h
      obtain ⟨k, m⟩ := p
      simp only [sortDict] at h
      cases h1 : sortPairs m with
      | error e2 =>
          rw [h1] at h
          cases h
          exact sortPairs_err m _ h1
      | ok m2 =>
          rw [h1, except_ok_bind] at h
          cases h2 : sortDict rest with
          | error e2 =>
              rw [h2] at h
              cases h
              exact ih _ h2
          | ok rest2 => rw [h2, except_ok_bind] at h; cases h

/-- C8 amended: for every segmentation with at least one feature (and
duplicate-free property keys, as Python dicts guarantee),
split_segmentation_classes raises NoSuitableKey exactly when no
candidate key survives the removal of keys with more than 20 distinct
(hashable) values, and whenever it returns a dictionary every key's
sub-mapping has at most 20 entries. (On an EMPTY segmentation the claim
fails: the code raises IndexError on keys_list[0] instead, see the
counterexample.) -/
theorem C8_split_bound_and_error (fs : List Feature) (hne : fs ≠ [])
    (hnd : ∀ f ∈ fs, (f.props.map Prod.fst).Nodup) :
    (split_segmentation_classes fs = .error .noSuitableKey ↔
      (buildDict fs).filter (fun kv => decide (kv.2.length ≤ 20)) = []) ∧
    ∀ d, split_segmentation_classes fs = .ok d → ∀ kv ∈ d, kv.2.length ≤ 20 := by
  have heq := split_eq fs hne hnd
  by_cases hf : (buildDict fs).filter (fun kv => decide (kv.2.length ≤ 20)) = []
  · rw [heq, if_pos hf]
    exact ⟨⟨fun _ => hf, fun _ => rfl⟩, fun d h => by cases h⟩
  · rw [heq, if_neg hf]
    constructor
    · constructor
      · intro h
        exact absurd (sortDict_err _ _ h).symm (by intro hc; cases hc)
      · intro h
        exact absurd h hf
    · intro d h kv hkv
      obtain ⟨kv1, hkv1, hlen⟩ := sortDict_spec _ d h kv hkv
      have := List.mem_filter.mp hkv1
      rw [hlen]
      simpa using this.2

/-- C8 counterexample: on the empty Segmentation there are zero candidate
keys, so the claim requires NoSuitableKeyError, but the code raises
IndexError at `keys_list[0]` before any candidate-key logic runs. -/
theorem C8_counterexample_empty :
    split_segmentation_classes ([] : List Feature) = .error .indexError ∧
    split_segmentation_classes ([] : List Feature) ≠ .error .noSuitableKey := by
  exact ⟨by decide, by decide⟩

theorem C8_split_bound_and_error_witness :
    (fiveSeg ≠ []) ∧ (∀ f ∈ fiveSeg, (f.props.map Prod.fst).Nodup) ∧
      ((split_segmentation_classes fiveSeg = .error .noSuitableKey ↔
        (buildDict fiveSeg).filter (fun kv => decide (kv.2.length ≤ 20)) = []) ∧
      ∀ d, split_segmentation_classes fiveSeg = .ok d → ∀ kv ∈ d, kv.2.length ≤ 20) :=
  ⟨by decide, by decide, C8_split_bound_and_error fiveSeg (by decide) (by decide)⟩

/-! ## Map.__init__ eager validation (segmentation.py lines 236-295)

The constructor takes optional dataset and segmentation arguments. A
present dataset is a DataSet object and a present segmentation a
FeatureCollection (a non-empty dict), both truthy, so Python truthiness
coincides with presence. The validation sequence is: the both-given
check, the emptiness check (which subscripts `segmentation` whenever
`dataset is None`), the neither-given check, and the isinstance checks
(which cannot fire for arguments of the correct types). -/

/-- An opaque, truthy dataset value; only its presence matters to the
validation. -/
structure DataSetV where
  id : Nat
deriving DecidableEq

/-- The validation outcomes: the three AdaptiveFilteringError branches
plus the TypeError Python raises when `None["features"]` is evaluated. -/
inductive MapErr where
  | bothGiven
  | emptySegmentation
  | noneGiven
  | pyTypeError
deriving DecidableEq

/-- Python `segmentation["features"] is []` (line 267): identity
comparison against a FRESH list literal; no existing object is identical
to a newly created list, so this is False for every segmentation. -/
def isEmptyListLiteral (_fs : List Feature) : Bool :=
  false

/-- The eager validation of Map.__init__; `ok` means the checks fall
through to the map construction. -/
def map_init_checks (dataset : Option DataSetV) (segmentation : Option (List Feature)) :
    Except MapErr Unit := do
  if dataset.isSome ∧ segmentation.isSome then
    throw .bothGiven
  if dataset.isNone then
    match segmentation with
    | none => throw .pyTypeError
    | some fs => if isEmptyListLiteral fs then throw .emptySegmentation else pure ()
  if dataset.isNone ∧ segmentation.isNone then
    throw .noneGiven
  pure ()

theorem except_throw {ε α : Type} (e : ε) : (throw e : Except ε α) = Except.error e := rfl

theorem except_pure {ε α : Type} (a : α) : (pure a : Except ε α) = Except.ok a := rfl

theorem except_error_bind {ε α β : Type} (e : ε) (f : α → Except ε β) :
    (Except.error e >>= f : Except ε β) = Except.error e := rfl

/-- C3 (code bug evidence): constructing a Map from an empty Segmentation
(and no dataset) passes the eager validation instead of failing with the
empty-segmentation error: the emptiness test compares the feature list by
IDENTITY with a fresh `[]` literal and is therefore always False; no
input whatsoever can raise the empty-segmentation error. -/
theorem C3_empty_segmentation_not_caught :
    map_init_checks none (some []) = .ok () ∧
    ∀ (d : Option DataSetV) (s : Option (List Feature)),
      map_init_checks d s ≠ .error .emptySegmentation := by
  constructor
  · rfl
  · intro d s
    cases d <;> cases s <;>
      simp [map_init_checks, isEmptyListLiteral, except_throw, except_pure,
        except_error_bind, except_ok_bind]

/-- C6 (code bug evidence): supplying both a dataset and a segmentation
raises the both-given configuration error, but supplying neither raises
TypeError: with `dataset is None`, line 267 evaluates
`segmentation["features"]` on None BEFORE the neither-given check on
line 270 can run, so the "None were given" error is unreachable. -/
theorem C6_both_rejected_neither_typeerror :
    (∀ (d : DataSetV) (fs : List Feature),
      map_init_checks (some d) (some fs) = .error .bothGiven) ∧
    map_init_checks none none = .error .pyTypeError ∧
    map_init_checks none none ≠ .error .noneGiven := by
  refine ⟨fun d fs => rfl, rfl, by decide⟩

/-! ## paths.py: check_file_extension (lines 114-124) and locate_file
(lines 127-180)

File names are POSIX paths; `os.path.splitext` is modelled after the
CPython implementation (split at the last dot after the last slash,
unless the basename up to that dot is all dots), `str.lower` as per-char
ASCII lowering, and `os.path.join` of two components after the POSIX
rules. The file system is a predicate saying which paths exist. -/

/-- Index of the last occurrence of a character, scanning from offset
`i` (CPython `str.rfind`). -/
def rfindAux (c : Char) : List Char → Nat → Option Nat
  | [], _ => none
  | d :: ds, i =>
      match rfindAux c ds (i + 1) with
      | some j => some j
      | none => if d = c then some i else none

/-- `p.rfind(c)` as an optional index. -/
def rfindIdx (c : Char) (s : List Char) : Option Nat :=
  rfindAux c s 0

/-- `os.path.splitext` for POSIX paths: `(root, ext)` with the extension
starting at the last dot after the last slash, except when the basename
consists only of leading dots up to there. -/
def splitext (p : String) : String × String :=
  let s := p.data
  let sepIndex : Int :=
    match rfindIdx '/' s with
    | some i => (i : Int)
    | none => -1
  let dotIndex : Int :=
    match rfindIdx '.' s with
    | some i => (i : Int)
    | none => -1
  if sepIndex < dotIndex then
    let fnIdx := (sepIndex + 1).toNat
    let dIdx := dotIndex.toNat
    if ((s.drop fnIdx).take (dIdx - fnIdx)).any (fun ch => ch ≠ '.') then
      (⟨s.take dIdx⟩, ⟨s.drop dIdx⟩)
    else (p, "")
  else (p, "")

/-- Python `str.lower` (ASCII range, which covers the extensions). -/
def strLower (x : String) : String :=
  ⟨x.data.map Char.toLower⟩

/-- The AFWizardError raised for an unsupported file extension. -/
inductive PathErr where
  | unsupportedExtension (ext : String)
deriving DecidableEq

/-- check_file_extension: an empty extension (or a bare dot) is replaced
by the default, then the extension must case-insensitively be one of the
allowed values; the returned path is `name + ext` (`os.path.join` of a
single component is the identity). -/
def check_file_extension (filename : String) (possible_values : List String)
    (default_value : String) : Except PathErr String :=
  let ne := splitext filename
  let ext := if ne.2 = "" ∨ ne.2 = "." then default_value else ne.2
  let possible_extensions := possible_values.map strLower
  if strLower ext ∈ possible_extensions then .ok (ne.1 ++ ext)
  else .error (.unsupportedExtension ext)

/-- Segmentation.save: the extension check runs first; only when it
passes is the file opened and the GeoJSON dumped. The result carries the
path written and the serialized content; an error means nothing was
written. -/
def segmentation_save (fs : List Feature) (filename : String) :
    Except PathErr (String × List Feature) := do
  let fn ← check_file_extension filename [".geojson"] ".geojson"
  .ok (fn, fs)

/-- C9: saving to a path with no extension (or a bare trailing dot)
appends .geojson and proceeds; saving to a path whose extension is not
case-insensitively .geojson fails with the unsupported-extension error
before anything is written. -/
theorem C9_save_extension_policy (filename : String) (fs : List Feature) :
    ((splitext filename).2 = "" ∨ (splitext filename).2 = "." →
      segmentation_save fs filename = .ok ((splitext filename).1 ++ ".geojson", fs)) ∧
    (¬((splitext filename).2 = "" ∨ (splitext filename).2 = ".") →
      strLower (splitext filename).2 ≠ ".geojson" →
      segmentation_save fs filename
        = .error (.unsupportedExtension (splitext filename).2)) := by
  have hlow : strLower ".geojson" = ".geojson" := rfl
  constructor
  · intro h
    simp [segmentation_save, check_file_extension, h, hlow, except_ok_bind]
  · intro h1 h2
    simp [segmentation_save, check_file_extension, h1, hlow, h2, except_error_bind]

theorem C9_save_extension_policy_witness :
    segmentation_save [] "data" = .ok ((splitext "data").1 ++ ".geojson", []) ∧
    segmentation_save [] "data.txt"
      = .error (.unsupportedExtension (splitext "data.txt").2) :=
  ⟨(C9_save_extension_policy "data" []).1 (by decide),
   (C9_save_extension_policy "data.txt" []).2 (by decide) (by decide)⟩

/-- POSIX `os.path.isabs`. -/
def isabs (p : String) : Bool :=
  match p.data with
  | [] => false
  | c :: _ => c = '/'

/-- Whether a path ends with the separator. -/
def endsWithSlash (a : String) : Bool :=
  match a.data.getLast? with
  | some c => c = '/'
  | none => false

/-- POSIX `os.path.join` of two components. -/
def pjoin (a b : String) : String :=
  if isabs b then b
  else if a = "" ∨ endsWithSlash a then a ++ b
  else a ++ "/" ++ b

/-- The FileNotFoundError of locate_file. -/
inductive LocErr where
  | fileNotFound
deriving DecidableEq

/-- The candidate paths tried for a relative filename, in priority
order: the data directory when set, the working directory, the XDG data
directories (empty on platforms other than Linux/macOS), and the test
data directory that download_test_file returns. -/
def locate_candidates (data_dir : Option String) (cwd : String) (xdg_dirs : List String)
    (testdata_dir : String) (filename : String) : List String :=
  (match data_dir with
    | some d => [pjoin d filename]
    | none => []) ++
    [pjoin cwd filename] ++ xdg_dirs.map (fun d => pjoin d filename) ++
    [pjoin testdata_dir filename]

/-- locate_file: an absolute path is returned unchanged without touching
the file system; a relative path resolves to the first existing
candidate, and FileNotFoundError is raised when none exists. `fsys` is
the file-existence predicate. -/
def locate_file (fsys : String → Bool) (data_dir : Option String) (cwd : String)
    (xdg_dirs : List String) (testdata_dir : String) (filename : String) :
    Except LocErr String :=
  if isabs filename then .ok filename
  else
    match (locate_candidates data_dir cwd xdg_dirs testdata_dir filename).find? fsys with
    | some c => .ok c
    | none => .error .fileNotFound

/-- C10: for every absolute path locate_file returns the path unchanged
regardless of the file system, and FileNotFoundError arises only for a
relative path none of whose candidate locations (data directory, working
directory, XDG directories, test-data directory) exists. -/
theorem C10_locate_file_absolute_and_notfound (fsys : String → Bool)
    (data_dir : Option String) (cwd : String) (xdg_dirs : List String)
    (testdata_dir : String) (filename : String) :
    (isabs filename = true →
      locate_file fsys data_dir cwd xdg_dirs testdata_dir filename = .ok filename) ∧
    (locate_file fsys data_dir cwd xdg_dirs testdata_dir filename = .error .fileNotFound →
      isabs filename = false ∧
      ∀ c ∈ locate_candidates data_dir cwd xdg_dirs testdata_dir filename,
        fsys c = false) := by
  constructor
  · intro h
    simp [locate_file, h]
  · intro h
    by_cases habs : isabs filename = true
    · rw [locate_file, if_pos habs] at h
      cases h
    · refine ⟨by simpa using habs, ?_⟩
      rw [locate_file, if_neg habs] at h
      cases hfind : (locate_candidates data_dir cwd xdg_dirs testdata_dir filename).find? fsys with
      | some c => rw [hfind] at h; cases h
      | none =>
          intro c hc
          have := List.find?_eq_none.mp hfind c hc
          simpa using this

theorem C10_locate_file_absolute_and_notfound_witness :
    (isabs "/abs/data.las" = true) ∧
    locate_file (fun _ => false) none "/w" [] "/t" "/abs/data.las" = .ok "/abs/data.las" ∧
    locate_file (fun _ => false) none "/w" [] "/t" "rel.las" = .error .fileNotFound ∧
    (isabs "rel.las" = false ∧
      ∀ c ∈ locate_candidates none "/w" [] "/t" "rel.las", (fun _ => false) c = false) :=
  ⟨by decide,
   (C10_locate_file_absolute_and_notfound (fun _ => false) none "/w" [] "/t"
      "/abs/data.las").1 (by decide),
   by decide,
   (C10_locate_file_absolute_and_notfound (fun _ => false) none "/w" [] "/t"
      "rel.las").2 (by decide)⟩
